import Mathlib

/-!
# Verification of the pylcp optical-pumping core

A shallow embedding of the pylcp atomic-physics simulation core: the
Hamiltonian assembler, the rate-equation engine and the optical-Bloch
engine, as exercised by `src/examples/basics/03_optical_pumping.py`.
Only the example script is present in the repository slice; the engine
classes themselves (`pylcp.hamiltonian`, `pylcp.obe`, `pylcp.rateeq`,
`pylcp.hamiltonians`) are declared in `__init__.py` but their bodies are
missing, so those operations are modelled from the specification and
marked as such in their doc comments.
-/

open Matrix
open scoped ComplexConjugate

namespace Pylcp

/-- The structural data owned by a `pylcp.hamiltonian` object
(constructed in the script as `pylcp.hamiltonian(Hg, He, mugq, mueq, d_q)`):
ground/excited bare-energy blocks, the three components of each manifold's
magnetic-moment operator, and the rank-1 spherical dipole tensor
(component index `k : Fin 3` stands for `q = k - 1 ∈ {-1, 0, +1}`). -/
structure hamiltonian (ng ne : ℕ) where
  Hg : Matrix (Fin ng) (Fin ng) ℂ
  He : Matrix (Fin ne) (Fin ne) ℂ
  mugq : Fin 3 → Matrix (Fin ng) (Fin ng) ℂ
  mueq : Fin 3 → Matrix (Fin ne) (Fin ne) ℂ
  d_q : Fin 3 → Matrix (Fin ng) (Fin ne) ℂ

/-- The sign `(-1.)**q` appearing in the script's coupling sum
(line 85 of `03_optical_pumping.py`), with `q = k - 1`. -/
def qsign (k : Fin 3) : ℂ := if k = 1 then 1 else -1

/-- The ground-by-excited coupling block, translated from the script's
direct construction (lines 83-85):
`H_sub2 -= 0.5*(-1.)**q*d_q[kk]*pol[2-kk]`, i.e. the projection of the
dipole tensor onto the spherical components of the polarization vector. -/
noncomputable def couplingBlock {ng ne : ℕ} (d_q : Fin 3 → Matrix (Fin ng) (Fin ne) ℂ)
    (pol : Fin 3 → ℂ) : Matrix (Fin ng) (Fin ne) ℂ :=
  ∑ k : Fin 3, (-(1 / 2) * qsign k * pol (2 - k)) • d_q k

/-- Modelled from the spec: the magnetic-field-dependent Zeeman shift,
"moment-operator projected onto the field vector" (§4.2); the body of
`pylcp.hamiltonian` is missing from the repository slice. -/
noncomputable def zeeman {n : ℕ} (muq : Fin 3 → Matrix (Fin n) (Fin n) ℂ)
    (B : Fin 3 → ℝ) : Matrix (Fin n) (Fin n) ℂ :=
  ∑ k : Fin 3, (B k : ℂ) • muq k

/-- Modelled from the spec: `return_full_H` of `pylcp.hamiltonian` (missing
from the repository slice), per §4.2: zero-fill a matrix sized to
ground+excited dimension; project the dipole tensor onto the polarization
to obtain the ground×excited coupling block; place this block and its
conjugate transpose in the off-diagonal quadrants; add the bare energies
and Zeeman shifts on the diagonal quadrants; add a global detuning to the
excited-block diagonal. -/
noncomputable def return_full_H {ng ne : ℕ} (h : hamiltonian ng ne) (pol : Fin 3 → ℂ)
    (B : Fin 3 → ℝ) (det : ℝ) :
    Matrix (Fin ng ⊕ Fin ne) (Fin ng ⊕ Fin ne) ℂ :=
  Matrix.fromBlocks (h.Hg + zeeman h.mugq B) (couplingBlock h.d_q pol)
    (couplingBlock h.d_q pol)ᴴ (h.He + zeeman h.mueq B + (det : ℂ) • 1)

/-- The Zeeman term is Hermitian when every moment component is. -/
theorem zeeman_isHermitian {n : ℕ} (muq : Fin 3 → Matrix (Fin n) (Fin n) ℂ)
    (B : Fin 3 → ℝ) (hmu : ∀ k, (muq k).IsHermitian) :
    (zeeman muq B).IsHermitian := by
  unfold zeeman Matrix.IsHermitian
  rw [Matrix.conjTranspose_sum]
  refine Finset.sum_congr rfl fun k _ => ?_
  rw [Matrix.conjTranspose_smul, (hmu k), Complex.star_def, Complex.conj_ofReal]

/-- The detuning term on the excited diagonal is Hermitian. -/
theorem detuning_isHermitian {n : ℕ} (det : ℝ) :
    ((det : ℂ) • (1 : Matrix (Fin n) (Fin n) ℂ)).IsHermitian := by
  unfold Matrix.IsHermitian
  rw [Matrix.conjTranspose_smul, Matrix.isHermitian_one,
    Complex.star_def, Complex.conj_ofReal]

/-- Modelled from the spec: `return_full_H` is "recomputed on every call — a
pure function of its inputs, never mutated in place"; as an explicit-state
operation it returns the untouched `hamiltonian` object alongside the
freshly built matrix. -/
noncomputable def return_full_H_st {ng ne : ℕ} (h : hamiltonian ng ne)
    (pol : Fin 3 → ℂ) (B : Fin 3 → ℝ) (det : ℝ) :
    hamiltonian ng ne × Matrix (Fin ng ⊕ Fin ne) (Fin ng ⊕ Fin ne) ℂ :=
  (h, return_full_H h pol B det)

/-- The concrete F=0 → F=1 dipole tensor used by the script
(`dqij_two_bare_hyperfine(0, 1)`): a 1×3 matrix per component `q`,
with entry 1 at the sublevel satisfying the selection rule. -/
noncomputable def dq01 : Fin 3 → Matrix (Fin 1) (Fin 3) ℂ :=
  fun k _ j => if j = k then 1 else 0

/-- A concrete F=0 → F=1 `hamiltonian` object as built by the script
with zero bare energies and zero moments, used as a witness input. -/
noncomputable def ham01 : hamiltonian 1 3 :=
  { Hg := 0, He := 0, mugq := fun _ => 0, mueq := fun _ => 0, d_q := dq01 }

/-- C1: for every manifold pair, dipole tensor, polarization mapping and
magnetic-field vector (with Hermitian bare energies and moment operators),
the matrix returned by `return_full_H` is exactly Hermitian: the
ground-by-excited coupling block in the upper off-diagonal quadrant equals
the conjugate transpose of the block in the lower quadrant, with no
post-hoc symmetrization. -/
theorem return_full_H_isHermitian {ng ne : ℕ} (h : hamiltonian ng ne)
    (pol : Fin 3 → ℂ) (B : Fin 3 → ℝ) (det : ℝ)
    (hHg : h.Hg.IsHermitian) (hHe : h.He.IsHermitian)
    (hmug : ∀ k, (h.mugq k).IsHermitian) (hmue : ∀ k, (h.mueq k).IsHermitian) :
    (return_full_H h pol B det).IsHermitian ∧
      (return_full_H h pol B det).toBlocks₂₁ =
        ((return_full_H h pol B det).toBlocks₁₂)ᴴ := by
  constructor
  · exact Matrix.IsHermitian.fromBlocks
      ((hHg.add (zeeman_isHermitian h.mugq B hmug)))
      rfl
      (((hHe.add (zeeman_isHermitian h.mueq B hmue)).add (detuning_isHermitian det)))
  · rfl

/-- Witness for C1 at the script's F=0 → F=1 structure with σ⁺ polarization
and zero field. -/
theorem return_full_H_isHermitian_witness :
    (Pylcp.ham01.Hg.IsHermitian ∧ Pylcp.ham01.He.IsHermitian) ∧
      (return_full_H ham01 (fun k => if k = 2 then 1 else 0) 0 0).IsHermitian ∧
        (return_full_H ham01 (fun k => if k = 2 then 1 else 0) 0 0).toBlocks₂₁ =
          ((return_full_H ham01 (fun k => if k = 2 then 1 else 0) 0 0).toBlocks₁₂)ᴴ :=
  ⟨⟨Matrix.isHermitian_zero, Matrix.isHermitian_zero⟩,
    return_full_H_isHermitian ham01 (fun k => if k = 2 then 1 else 0) 0 0
      Matrix.isHermitian_zero Matrix.isHermitian_zero
      (fun _ => Matrix.isHermitian_zero) (fun _ => Matrix.isHermitian_zero)⟩

/-- C7: the Hamiltonian build is a pure, deterministic operation: two calls
with equal polarization mappings and field vectors return equal matrices,
and the call leaves the `hamiltonian` object's state unchanged (the result
is a fresh value, independent of the object's storage). -/
theorem return_full_H_pure {ng ne : ℕ} (h : hamiltonian ng ne)
    (pol pol' : Fin 3 → ℂ) (B B' : Fin 3 → ℝ) (det : ℝ)
    (hpol : pol = pol') (hB : B = B') :
    (return_full_H_st h pol B det).1 = h ∧
      (return_full_H_st h pol B det).2 = (return_full_H_st h pol' B' det).2 := by
  subst hpol; subst hB; exact ⟨rfl, rfl⟩

/-- Witness for C7 at the script's F=0 → F=1 structure. -/
theorem return_full_H_pure_witness :
    (return_full_H_st ham01 (fun _ => 1) 0 0).1 = ham01 ∧
      (return_full_H_st ham01 (fun _ => 1) 0 0).2 =
        (return_full_H_st ham01 (fun _ => 1) 0 0).2 :=
  return_full_H_pure ham01 (fun _ => 1) (fun _ => 1) 0 0 0 rfl rfl

/-! ## Spherical dipole tensor (C6)

`pylcp.hamiltonians.dqij_two_bare_hyperfine` is missing from the
repository slice; it is modelled from §4.1 of the spec: the rank-1
spherical dipole tensor between a ground manifold `F_g` and an excited
manifold `F_e`, nonzero only where the magnetic quantum number changes by
the component index `q`, with magnitudes fixed by Clebsch–Gordan-type
angular-momentum coupling coefficients. -/

/-- The magnetic quantum number of the `i`-th sublevel of manifold `F`
(sublevels ordered from `m = -F` to `m = +F`). -/
def mIdx (F : ℕ) (i : Fin (2 * F + 1)) : ℤ := (i : ℤ) - (F : ℤ)

/-- The spherical component index `q = k - 1 ∈ {-1, 0, +1}`. -/
def qval (k : Fin 3) : ℤ := (k : ℤ) - 1

/-- Modelled from the spec: the Clebsch–Gordan coupling weight
`⟨F_g m; 1 q | F_e (m+q)⟩` (Condon–Shortley closed forms for a rank-1
coupling), zero when `|F_g - F_e| > 1`. -/
noncomputable def cgWeight (Fg Fe : ℕ) (m q : ℤ) : ℝ :=
  let j : ℝ := Fg
  let mr : ℝ := m
  if Fe = Fg + 1 then
    if q = 1 then Real.sqrt ((j + mr + 1) * (j + mr + 2) / ((2*j + 1) * (2*j + 2)))
    else if q = 0 then Real.sqrt ((j - mr + 1) * (j + mr + 1) / ((2*j + 1) * (j + 1)))
    else Real.sqrt ((j - mr + 1) * (j - mr + 2) / ((2*j + 1) * (2*j + 2)))
  else if Fe = Fg then
    if q = 1 then -Real.sqrt ((j + mr + 1) * (j - mr) / (2*j * (j + 1)))
    else if q = 0 then mr / Real.sqrt (j * (j + 1))
    else Real.sqrt ((j - mr + 1) * (j + mr) / (2*j * (j + 1)))
  else if Fg = Fe + 1 then
    if q = 1 then Real.sqrt ((j - mr) * (j - mr - 1) / (2*j * (2*j + 1)))
    else if q = 0 then -Real.sqrt ((j - mr) * (j + mr) / (j * (2*j + 1)))
    else Real.sqrt ((j + mr) * (j + mr + 1) / (2*j * (2*j + 1)))
  else 0

/-- Modelled from the spec: `dqij_two_bare_hyperfine(Fg, Fe)` (missing from
the repository slice), per §4.1: the spherical dipole tensor with entries
nonzero only where the magnetic quantum number changes by the component
index, of magnitude fixed by the coupling weight. -/
noncomputable def dqij_two_bare_hyperfine (Fg Fe : ℕ) :
    Fin 3 → Matrix (Fin (2 * Fg + 1)) (Fin (2 * Fe + 1)) ℝ :=
  fun k => Matrix.of fun i j =>
    if mIdx Fe j = mIdx Fg i + qval k
    then cgWeight Fg Fe (mIdx Fg i) (qval k) else 0

/-- C6: an entry of the spherical dipole tensor at component `q = k - 1`
and sublevel pair `(m_g, m_e)` is nonzero only when `m_e = m_g + q`, and
every nonzero entry's magnitude is the angular-momentum coupling weight. -/
theorem dqij_selection_rule (Fg Fe : ℕ) (k : Fin 3)
    (i : Fin (2 * Fg + 1)) (j : Fin (2 * Fe + 1))
    (hne : dqij_two_bare_hyperfine Fg Fe k i j ≠ 0) :
    mIdx Fe j = mIdx Fg i + qval k ∧
      dqij_two_bare_hyperfine Fg Fe k i j =
        cgWeight Fg Fe (mIdx Fg i) (qval k) := by
  by_cases hsel : mIdx Fe j = mIdx Fg i + qval k
  · exact ⟨hsel, if_pos hsel⟩
  · exact absurd (if_neg hsel) hne

/-- Witness for C6 on the script's F=0 → F=1 structure, component
`q = +1`, coupling `m_g = 0` to `m_e = +1` with weight 1. -/
theorem dqij_selection_rule_witness :
    dqij_two_bare_hyperfine 0 1 2 0 2 ≠ 0 ∧ mIdx 1 2 = mIdx 0 0 + qval 2 :=
  ⟨by norm_num [dqij_two_bare_hyperfine, mIdx, qval, cgWeight],
    (dqij_selection_rule 0 1 2 0 2
      (by norm_num [dqij_two_bare_hyperfine, mIdx, qval, cgWeight])).1⟩

/-! ## Optical-Bloch engine with the decay superoperator zeroed (C2)

The script forcibly sets `obe[key].ev_mat['decay'][:, :] = 0` so that
`evolve_density` integrates the purely coherent Liouville equation
dρ/dt = −i[H,ρ].  Its exact solution is conjugation by the propagator
exp(−iHt), which is what the script compares against (`solve_ivp` of
`-1j*H2 @ x` on the state vector). -/

/-- Modelled from the spec: the coherent propagator, "direct matrix
exponentiation of a small coherent Hamiltonian" (§4.4); the body of
`pylcp.obe` is missing from the repository slice. -/
noncomputable def schrodingerProp {n : ℕ} (H : Matrix (Fin n) (Fin n) ℂ)
    (t : ℝ) : Matrix (Fin n) (Fin n) ℂ :=
  NormedSpace.exp ℂ ((-(Complex.I * t)) • H)

/-- Modelled from the spec: `evolve_density` with `ev_mat['decay']` zeroed
(§4.4 edge case): the solution of dρ/dt = −i[H,ρ] at time `t`, namely
exp(−iHt) · ρ · exp(+iHt). -/
noncomputable def evolve_density_zero_decay {n : ℕ}
    (H : Matrix (Fin n) (Fin n) ℂ) (t : ℝ) (ρ : Matrix (Fin n) (Fin n) ℂ) :
    Matrix (Fin n) (Fin n) ℂ :=
  schrodingerProp H t * ρ * NormedSpace.exp ℂ ((Complex.I * t) • H)

/-- The two exponential factors are mutually inverse. -/
theorem schrodingerProp_mul_inv {n : ℕ} (H : Matrix (Fin n) (Fin n) ℂ)
    (t : ℝ) :
    schrodingerProp H t * NormedSpace.exp ℂ ((Complex.I * t) • H) = 1 ∧
      NormedSpace.exp ℂ ((Complex.I * t) • H) * schrodingerProp H t = 1 := by
  have hc : Commute ((-(Complex.I * t)) • H) ((Complex.I * t) • H) :=
    ((Commute.refl H).smul_left _).smul_right _
  constructor
  · rw [schrodingerProp, ← Matrix.exp_add_of_commute _ _ _ hc]
    simp
  · rw [schrodingerProp, ← Matrix.exp_add_of_commute _ _ _ hc.symm]
    simp

/-- For Hermitian `H`, the reverse factor is the conjugate transpose of the
propagator. -/
theorem schrodingerProp_conjTranspose {n : ℕ} {H : Matrix (Fin n) (Fin n) ℂ}
    (t : ℝ) (hH : H.IsHermitian) :
    (schrodingerProp H t)ᴴ = NormedSpace.exp ℂ ((Complex.I * t) • H) := by
  rw [schrodingerProp, ← Matrix.exp_conjTranspose, Matrix.conjTranspose_smul, hH]
  congr 1
  simp [Complex.ext_iff]

/-- Pushing a matrix product into an outer product on the left. -/
theorem mul_vecMulVec {n : ℕ} (A : Matrix (Fin n) (Fin n) ℂ)
    (x y : Fin n → ℂ) :
    A * Matrix.vecMulVec x y = Matrix.vecMulVec (A.mulVec x) y := by
  ext i j
  simp only [Matrix.mul_apply, Matrix.vecMulVec_apply, Matrix.mulVec,
    Matrix.dotProduct, Finset.sum_mul]
  exact Finset.sum_congr rfl fun k _ => by ring

/-- Pushing a matrix product into an outer product on the right. -/
theorem vecMulVec_mul {n : ℕ} (C : Matrix (Fin n) (Fin n) ℂ)
    (x y : Fin n → ℂ) :
    Matrix.vecMulVec x y * C = Matrix.vecMulVec x (Matrix.vecMul y C) := by
  ext i j
  simp only [Matrix.mul_apply, Matrix.vecMulVec_apply, Matrix.vecMul,
    Matrix.dotProduct, Finset.mul_sum]
  exact Finset.sum_congr rfl fun k _ => by ring

/-- C2: with the decay superoperator forced to zero, `evolve_density` is
exactly unitary Schrödinger dynamics: for every Hermitian, trace-1 initial
density matrix it preserves trace 1, Hermiticity and purity (trace of ρ²)
at every time, and on a pure state it agrees with direct matrix
exponentiation of the coherent Hamiltonian applied to the corresponding
state vector (so the diagonal-population trajectory matches the
state-vector integration). -/
theorem evolve_density_zero_decay_unitary {n : ℕ}
    (H ρ : Matrix (Fin n) (Fin n) ℂ) (ψ : Fin n → ℂ) (t : ℝ)
    (hH : H.IsHermitian) (hρ : ρ.IsHermitian) (htr : ρ.trace = 1) :
    (evolve_density_zero_decay H t ρ).trace = 1 ∧
      (evolve_density_zero_decay H t ρ).IsHermitian ∧
      (evolve_density_zero_decay H t ρ * evolve_density_zero_decay H t ρ).trace
        = (ρ * ρ).trace ∧
      evolve_density_zero_decay H t (Matrix.vecMulVec ψ (star ψ)) =
        Matrix.vecMulVec ((schrodingerProp H t).mulVec ψ)
          (star ((schrodingerProp H t).mulVec ψ)) := by
  set A := schrodingerProp H t with hA
  set B := NormedSpace.exp ℂ ((Complex.I * t) • H) with hB
  have hBA : B * A = 1 := (schrodingerProp_mul_inv H t).2
  have hAB : A * B = 1 := (schrodingerProp_mul_inv H t).1
  have hAH : Aᴴ = B := schrodingerProp_conjTranspose t hH
  refine ⟨?_, ?_, ?_, ?_⟩
  · rw [evolve_density_zero_decay, ← hA, ← hB, Matrix.trace_mul_cycle,
      hBA, one_mul, htr]
  · rw [Matrix.IsHermitian, evolve_density_zero_decay, ← hA, ← hB,
      Matrix.conjTranspose_mul, Matrix.conjTranspose_mul, hAH,
      ← hAH, Matrix.conjTranspose_conjTranspose, hρ, mul_assoc]
  · rw [evolve_density_zero_decay, ← hA, ← hB]
    have step : A * ρ * B * (A * ρ * B) = A * ρ * (B * A) * (ρ * B) := by
      noncomm_ring
    have : A * ρ * B * (A * ρ * B) = A * (ρ * ρ) * B := by
      rw [step, hBA, mul_one]
      noncomm_ring
    rw [this, Matrix.trace_mul_cycle, ← mul_assoc, hBA, one_mul]
  · rw [evolve_density_zero_decay, ← hA, ← hB, mul_vecMulVec, vecMulVec_mul,
      Matrix.star_mulVec, hAH]

/-- Witness for C2 on the one-level system with `H = 0`, `ρ = 1`, `t = 0`. -/
theorem evolve_density_zero_decay_unitary_witness :
    ((0 : Matrix (Fin 1) (Fin 1) ℂ).IsHermitian ∧
        (1 : Matrix (Fin 1) (Fin 1) ℂ).IsHermitian ∧
        (1 : Matrix (Fin 1) (Fin 1) ℂ).trace = 1) ∧
      (evolve_density_zero_decay (0 : Matrix (Fin 1) (Fin 1) ℂ) 0 1).trace = 1 :=
  ⟨⟨Matrix.isHermitian_zero, Matrix.isHermitian_one, by simp⟩,
    (evolve_density_zero_decay_unitary (0 : Matrix (Fin 1) (Fin 1) ℂ) 1
      (fun _ => 1) 0 Matrix.isHermitian_zero Matrix.isHermitian_one (by simp)).1⟩

/-! ## Complex vs real/imaginary split representation (C3)

`pylcp.obe` supports `transform_into_re_im = False` (a flattened complex
state driven by the complex Liouville generator) and
`transform_into_re_im = True` (the real and imaginary parts stacked into a
doubled real state driven by the corresponding real generator).  The body
of `pylcp.obe` is missing from the repository slice, so both
representations are modelled from §4.4 of the spec. -/

/-- Modelled from the spec: one integrator step of the complex-flattening
representation (`transform_into_re_im=False`), for a linear Liouville
generator `L` and step `h`. -/
noncomputable def stepComplex {N : ℕ} (L : Matrix (Fin N) (Fin N) ℂ) (h : ℝ)
    (x : Fin N → ℂ) : Fin N → ℂ :=
  x + h • L.mulVec x

/-- The real/imaginary split of a flattened complex state: the real parts
in the first half, the imaginary parts in the second
(`transform_into_re_im=True` doubles the state dimension). -/
def toReIm {N : ℕ} (x : Fin N → ℂ) : Fin N ⊕ Fin N → ℝ :=
  Sum.elim (fun i => (x i).re) (fun i => (x i).im)

/-- Modelled from the spec: the real generator of the split representation,
acting block-wise as multiplication by `L` does on `re + i·im`. -/
noncomputable def splitGen {N : ℕ} (L : Matrix (Fin N) (Fin N) ℂ) :
    Matrix (Fin N ⊕ Fin N) (Fin N ⊕ Fin N) ℝ :=
  Matrix.fromBlocks (L.map Complex.re) (-(L.map Complex.im))
    (L.map Complex.im) (L.map Complex.re)

/-- Modelled from the spec: one integrator step of the real/imaginary split
representation (`transform_into_re_im=True`). -/
noncomputable def stepReIm {N : ℕ} (L : Matrix (Fin N) (Fin N) ℂ) (h : ℝ)
    (y : Fin N ⊕ Fin N → ℝ) : Fin N ⊕ Fin N → ℝ :=
  y + h • (splitGen L).mulVec y

/-- The split of the complex generator action equals the real generator's
action on the split state. -/
theorem toReIm_mulVec {N : ℕ} (L : Matrix (Fin N) (Fin N) ℂ)
    (x : Fin N → ℂ) :
    toReIm (L.mulVec x) = (splitGen L).mulVec (toReIm x) := by
  rw [toReIm, toReIm, splitGen, Matrix.fromBlocks_mulVec]
  funext i
  cases i with
  | inl i =>
    simp only [Sum.elim_inl, Sum.elim_inr, Function.comp, Pi.add_apply,
      Matrix.mulVec, Matrix.dotProduct, Matrix.neg_apply, Matrix.map_apply,
      Complex.re_sum, Complex.mul_re]
    rw [← Finset.sum_add_distrib]
    exact Finset.sum_congr rfl fun j _ => by ring
  | inr i =>
    simp only [Sum.elim_inl, Sum.elim_inr, Function.comp, Pi.add_apply,
      Matrix.mulVec, Matrix.dotProduct, Matrix.neg_apply, Matrix.map_apply,
      Complex.im_sum, Complex.mul_im]
    rw [← Finset.sum_add_distrib]
    exact Finset.sum_congr rfl fun j _ => by ring

/-- One step of the split representation is the split of one complex step. -/
theorem toReIm_step {N : ℕ} (L : Matrix (Fin N) (Fin N) ℂ) (h : ℝ)
    (x : Fin N → ℂ) :
    toReIm (stepComplex L h x) = stepReIm L h (toReIm x) := by
  rw [stepReIm, ← toReIm_mulVec]
  funext i
  cases i with
  | inl i => simp [toReIm, stepComplex, Complex.smul_re]
  | inr i => simp [toReIm, stepComplex, Complex.smul_im]

/-- C3: on the identical problem (same generator `L`, step size and initial
condition), the Optical-Bloch engine's complex flattening
(`transform_into_re_im=False`) and real/imaginary split flattening
(`transform_into_re_im=True`) produce trajectories that agree: at every
step count `k`, the real trajectory is exactly the real/imaginary split of
the complex trajectory, and the complex trajectory is recovered from the
real one. -/
theorem evolve_density_re_im_equiv {N : ℕ} (L : Matrix (Fin N) (Fin N) ℂ)
    (h : ℝ) (x0 : Fin N → ℂ) (k : ℕ) (i : Fin N) :
    toReIm ((stepComplex L h)^[k] x0) = (stepReIm L h)^[k] (toReIm x0) ∧
      (stepComplex L h)^[k] x0 i =
        ((stepReIm L h)^[k] (toReIm x0) (Sum.inl i) : ℝ) +
          ((stepReIm L h)^[k] (toReIm x0) (Sum.inr i) : ℝ) * Complex.I := by
  have main : ∀ m : ℕ, toReIm ((stepComplex L h)^[m] x0) =
      (stepReIm L h)^[m] (toReIm x0) := by
    intro m
    induction m with
    | zero => rfl
    | succ m ih =>
      rw [Function.iterate_succ_apply', Function.iterate_succ_apply',
        toReIm_step, ih]
  refine ⟨main k, ?_⟩
  rw [← main k]
  exact (Complex.re_add_im _).symm

/-! ## Rate-equation engine (C4, C5)

`pylcp.rateeq` is missing from the repository slice; the rate-matrix
generator, the population evolution and the equilibrium solve are modelled
from §4.3 and §3 of the spec. -/

/-- Modelled from the spec: the rate matrix `R` of `pylcp.rateeq` (missing
from the repository slice), assembled from the transfer rates `r i j`
(rate into sublevel `i` from sublevel `j`) as off-diagonal entries, with
"diagonal loss terms ensuring conservation" (§3): each diagonal entry is
minus the total rate out of its column. -/
noncomputable def rateMatrix {n : ℕ} (r : Fin n → Fin n → ℝ) :
    Matrix (Fin n) (Fin n) ℝ :=
  Matrix.of fun i j =>
    if i = j then -(∑ k, if k = j then 0 else r k j) else r i j

/-- Modelled from the spec: one integrator step of `evolve_populations`,
integrating dN/dt = R·N. -/
noncomputable def eulerPop {n : ℕ} (R : Matrix (Fin n) (Fin n) ℝ) (h : ℝ)
    (N : Fin n → ℝ) : Fin n → ℝ :=
  N + h • R.mulVec N

/-- Every column of the rate matrix sums to zero: the loss/gain balance is
structural, independent of the integrator. -/
theorem rateMatrix_col_sum {n : ℕ} (r : Fin n → Fin n → ℝ) (j : Fin n) :
    ∑ i, rateMatrix r i j = 0 := by
  rw [← Finset.add_sum_erase _ (fun i => rateMatrix r i j) (Finset.mem_univ j)]
  have hdiag : rateMatrix r j j = -(∑ k ∈ Finset.univ.erase j, r k j) := by
    show (if j = j then -(∑ k, if k = j then 0 else r k j) else r j j) = _
    rw [if_pos rfl, ← Finset.add_sum_erase _ (fun k => if k = j then 0 else r k j)
      (Finset.mem_univ j), if_pos rfl, zero_add]
    congr 1
    exact Finset.sum_congr rfl fun k hk => if_neg (Finset.ne_of_mem_erase hk)
  have hoff : ∑ i ∈ Finset.univ.erase j, rateMatrix r i j =
      ∑ i ∈ Finset.univ.erase j, r i j :=
    Finset.sum_congr rfl fun i hi => if_neg (Finset.ne_of_mem_erase hi)
  rw [hdiag, hoff, neg_add_cancel]

/-- A generator with zero column sums annihilates total population. -/
theorem sum_mulVec_eq_zero {n : ℕ} (R : Matrix (Fin n) (Fin n) ℝ)
    (hcol : ∀ j, ∑ i, R i j = 0) (N : Fin n → ℝ) :
    ∑ i, R.mulVec N i = 0 := by
  simp only [Matrix.mulVec, Matrix.dotProduct]
  rw [Finset.sum_comm]
  have : ∀ j, ∑ i, R i j * N j = 0 := by
    intro j
    rw [← Finset.sum_mul, hcol j, zero_mul]
  exact Finset.sum_eq_zero fun j _ => this j

/-- One Euler step of the rate equations preserves total population. -/
theorem eulerPop_sum {n : ℕ} (r : Fin n → Fin n → ℝ) (h : ℝ)
    (N : Fin n → ℝ) :
    ∑ i, eulerPop (rateMatrix r) h N i = ∑ i, N i := by
  simp only [eulerPop, Pi.add_apply, Pi.smul_apply, smul_eq_mul]
  rw [Finset.sum_add_distrib, ← Finset.mul_sum,
    sum_mulVec_eq_zero _ (rateMatrix_col_sum r) N, mul_zero, add_zero]

/-- C4: for every initial population vector summing to 1 and every set of
transfer rates, the `evolve_populations` trajectory has every column
summing to 1, and conservation is already guaranteed by the rate-matrix
structure itself — every column of the generator sums to zero,
independent of the integrator. -/
theorem evolve_populations_conserves {n : ℕ} (r : Fin n → Fin n → ℝ)
    (h : ℝ) (N0 : Fin n → ℝ) (hsum : ∑ i, N0 i = 1) (k : ℕ) :
    (∀ j, ∑ i, rateMatrix r i j = 0) ∧
      ∑ i, (eulerPop (rateMatrix r) h)^[k] N0 i = 1 := by
  refine ⟨rateMatrix_col_sum r, ?_⟩
  induction k with
  | zero => exact hsum
  | succ k ih => rw [Function.iterate_succ_apply', eulerPop_sum, ih]

/-- Witness for C4: a two-level system with unit transfer rates, starting
entirely in the first sublevel, after three Euler steps. -/
theorem evolve_populations_conserves_witness :
    (∑ i : Fin 2, (if i = 0 then (1 : ℝ) else 0)) = 1 ∧
      ∑ i, (eulerPop (rateMatrix fun _ _ : Fin 2 => (1 : ℝ)) 1)^[3]
          (fun i : Fin 2 => if i = 0 then (1 : ℝ) else 0) i = 1 :=
  ⟨by simp [Fin.sum_univ_two],
    (evolve_populations_conserves (fun _ _ : Fin 2 => (1 : ℝ)) 1
      (fun i : Fin 2 => if i = 0 then (1 : ℝ) else 0)
      (by simp [Fin.sum_univ_two]) 3).2⟩

/-- Modelled from the spec: the linear system solved by
`equilibrium_populations` — the rate matrix with one row replaced by the
normalization constraint Σ N = 1 (§4.3). -/
noncomputable def equilibriumSystem {n : ℕ} (R : Matrix (Fin n) (Fin n) ℝ) :
    Matrix (Fin n) (Fin n) ℝ :=
  Matrix.of fun i j => if (i : ℕ) = 0 then 1 else R i j

/-- Modelled from the spec: the right-hand side of the equilibrium solve:
1 in the replaced row, 0 elsewhere. -/
noncomputable def equilibriumRHS {n : ℕ} : Fin n → ℝ :=
  fun i => if (i : ℕ) = 0 then 1 else 0

/-- With all transfer rates zero the rate matrix vanishes. -/
theorem rateMatrix_zero_rates {n : ℕ} :
    rateMatrix (fun _ _ : Fin n => (0 : ℝ)) = 0 := by
  ext i j
  simp [rateMatrix]

/-- With a vanishing rate matrix every Euler step is the identity. -/
theorem eulerPop_zero_matrix {n : ℕ} (h : ℝ) (N : Fin n → ℝ) :
    eulerPop (0 : Matrix (Fin n) (Fin n) ℝ) h N = N := by
  simp [eulerPop, Matrix.zero_mulVec]

/-- Counterexample to C5: for the degenerate static configuration with all
transfer rates zero on two sublevels, the vector (0, 1) solves the replaced
linear system, the normalized initial populations (1, 0) start a trajectory
of `evolve_populations` that is still (1, 0) after 1000 steps — so the
solve's result does not equal the long-time limit of `evolve_populations`
under the same configuration. -/
theorem equilibrium_long_time_counterexample :
    (equilibriumSystem (rateMatrix fun _ _ : Fin 2 => (0 : ℝ))).mulVec
        (fun i : Fin 2 => if i = 0 then 0 else 1) = equilibriumRHS ∧
      (∑ i : Fin 2, (if i = 0 then (1 : ℝ) else 0)) = 1 ∧
      (eulerPop (rateMatrix fun _ _ : Fin 2 => (0 : ℝ)) 1)^[1000]
          (fun i : Fin 2 => if i = 0 then (1 : ℝ) else 0) ≠
        fun i : Fin 2 => if i = 0 then (0 : ℝ) else 1 := by
  have hzero : rateMatrix (fun _ _ : Fin 2 => (0 : ℝ)) = 0 :=
    rateMatrix_zero_rates
  refine ⟨?_, by simp [Fin.sum_univ_two], ?_⟩
  · funext i
    fin_cases i <;>
      simp [equilibriumSystem, equilibriumRHS, hzero, Matrix.mulVec,
        Matrix.dotProduct, Fin.sum_univ_two]
  · have hstep : eulerPop (rateMatrix fun _ _ : Fin 2 => (0 : ℝ)) 1 = id := by
      funext N
      rw [hzero]
      exact eulerPop_zero_matrix 1 N
    rw [hstep, Function.iterate_id, id]
    intro hcon
    have := congrFun hcon 0
    simp at this

/-- C5 (amended): `equilibrium_populations` is a direct algebraic solve of
R·N = 0 with one row replaced by the normalization Σ N = 1, not a
long-time integration: any solution `Neq` of that replaced linear system
is a genuine steady state (R·Neq = 0 and Σ Neq = 1) whose
`evolve_populations` trajectory is constant at every step; conversely,
every normalized steady state — in particular any settled long-time limit
of `evolve_populations` — solves the same replaced system, and therefore
equals the solve's result whenever that system is nonsingular, i.e.
whenever the direct solve has a unique answer.  (For a singular replaced
system, as with all rates zero, a trajectory started elsewhere need not
approach `Neq`.) -/
theorem equilibrium_populations_steady {n : ℕ} (r : Fin n → Fin n → ℝ)
    (h : ℝ) (Neq : Fin n → ℝ) (hn : 0 < n)
    (hsolve : (equilibriumSystem (rateMatrix r)).mulVec Neq = equilibriumRHS) :
    (rateMatrix r).mulVec Neq = 0 ∧ (∑ i, Neq i = 1) ∧
      (∀ k, (eulerPop (rateMatrix r) h)^[k] Neq = Neq) ∧
      (∀ L : Fin n → ℝ, (rateMatrix r).mulVec L = 0 → (∑ i, L i = 1) →
        (equilibriumSystem (rateMatrix r)).mulVec L = equilibriumRHS) ∧
      (∀ L : Fin n → ℝ, (rateMatrix r).mulVec L = 0 → (∑ i, L i = 1) →
        Function.Injective (equilibriumSystem (rateMatrix r)).mulVec →
        L = Neq) := by
  set R := rateMatrix r with hR
  set i0 : Fin n := ⟨0, hn⟩ with hi0
  have hrow0 : ∑ j, Neq j = 1 := by
    have := congrFun hsolve i0
    simpa [equilibriumSystem, equilibriumRHS, Matrix.mulVec,
      Matrix.dotProduct] using this
  have hoff : ∀ i : Fin n, (i : ℕ) ≠ 0 → R.mulVec Neq i = 0 := by
    intro i hi
    have := congrFun hsolve i
    simpa [equilibriumSystem, equilibriumRHS, Matrix.mulVec,
      Matrix.dotProduct, hi] using this
  have hzero : R.mulVec Neq = 0 := by
    have htot : ∑ i, R.mulVec Neq i = 0 :=
      sum_mulVec_eq_zero R (rateMatrix_col_sum r) Neq
    have hsplit : R.mulVec Neq i0 + ∑ i ∈ Finset.univ.erase i0, R.mulVec Neq i
        = ∑ i, R.mulVec Neq i :=
      Finset.add_sum_erase _ _ (Finset.mem_univ i0)
    have herase : ∑ i ∈ Finset.univ.erase i0, R.mulVec Neq i = 0 :=
      Finset.sum_eq_zero fun i hi =>
        hoff i (fun hcon => Finset.ne_of_mem_erase hi (Fin.ext hcon))
    funext i
    by_cases hi : (i : ℕ) = 0
    · have : i = i0 := Fin.ext hi
      rw [this]
      have := hsplit.trans htot
      rw [herase, add_zero] at this
      exact this
    · exact hoff i hi
  have hconv : ∀ L : Fin n → ℝ, R.mulVec L = 0 → (∑ i, L i = 1) →
      (equilibriumSystem R).mulVec L = equilibriumRHS := by
    intro L hL1 hL2
    funext i
    by_cases hi : (i : ℕ) = 0
    · simpa [equilibriumSystem, equilibriumRHS, Matrix.mulVec,
        Matrix.dotProduct, hi] using hL2
    · simpa [equilibriumSystem, equilibriumRHS, Matrix.mulVec,
        Matrix.dotProduct, hi] using congrFun hL1 i
  refine ⟨hzero, hrow0, ?_, hconv,
    fun L hL1 hL2 hinj => hinj ((hconv L hL1 hL2).trans hsolve.symm)⟩
  intro k
  induction k with
  | zero => rfl
  | succ k ih =>
    rw [Function.iterate_succ_apply', ih, eulerPop, hzero, smul_zero, add_zero]

/-- Witness for C5: the trivial one-level system, where the replaced system
forces the single population to 1. -/
theorem equilibrium_populations_steady_witness :
    ((0 : ℕ) < 1 ∧
        (equilibriumSystem (rateMatrix fun _ _ => (0 : ℝ))).mulVec
            (fun _ : Fin 1 => (1 : ℝ)) = equilibriumRHS) ∧
      (∑ _i : Fin 1, (1 : ℝ) = 1) :=
  ⟨⟨Nat.zero_lt_one, by
      funext i
      rw [Fin.fin_one_eq_zero i]
      simp [equilibriumSystem, equilibriumRHS, rateMatrix, Matrix.mulVec,
        Matrix.dotProduct]⟩,
    (equilibrium_populations_steady (fun _ _ => (0 : ℝ)) 1
      (fun _ => (1 : ℝ)) Nat.zero_lt_one (by
        funext i
        rw [Fin.fin_one_eq_zero i]
        simp [equilibriumSystem, equilibriumRHS, rateMatrix, Matrix.mulVec,
          Matrix.dotProduct])).2.1⟩

/-! ## Optical-Bloch engine setup and solution reshaping (C8, C10)

The body of `pylcp.obe` is missing from the repository slice; its setup
validation (`set_initial_rho`), evolution bookkeeping (`evolve_density`)
and reshaping accessor (`reshape_sol`) are modelled from §4.4 of the spec.
The supplied flattened vector is modelled with exact rational
real/imaginary parts, so the validation logic is fully executable. -/

/-- A structural-configuration error raised during engine setup (§7a). -/
inductive ObeError
  | dimMismatch
  | notReal
deriving DecidableEq

/-- The mutable state of a `pylcp.obe` engine that the setup operations
touch: the representation flag passed at construction and the stored
initial flattened density. -/
structure obe (n : ℕ) where
  transform_into_re_im : Bool
  rho0 : Option (List (ℚ × ℚ))
deriving DecidableEq

/-- Modelled from the spec: `set_initial_rho` of `pylcp.obe` (missing from
the repository slice), per §4.4: "validates length = (manifold dimension)²,
and for real/imaginary mode expects a real-valued flattened representation;
fails on mismatch".  Returned alongside the (unchanged on failure) engine
state. -/
def set_initial_rho {n : ℕ} (s : obe n) (v : List (ℚ × ℚ)) :
    obe n × Option ObeError :=
  if v.length ≠ n * n then (s, some ObeError.dimMismatch)
  else if s.transform_into_re_im = true ∧ ¬(∀ p ∈ v, p.2 = 0) then
    (s, some ObeError.notReal)
  else ({ s with rho0 := some v }, none)

/-- C8: `set_initial_rho` validates that the supplied vector's length is
the square of the full manifold dimension and, in real/imaginary mode,
that the vector is real-valued; on any mismatch it raises a
structural-configuration error and leaves the engine's stored state
unchanged. -/
theorem set_initial_rho_validates {n : ℕ} (s : obe n) (v : List (ℚ × ℚ))
    (hbad : v.length ≠ n * n ∨
      (s.transform_into_re_im = true ∧ ¬(∀ p ∈ v, p.2 = 0))) :
    (set_initial_rho s v).2 ≠ none ∧ (set_initial_rho s v).1 = s := by
  rw [set_initial_rho]
  rcases hbad with hlen | hmode
  · rw [if_pos hlen]
    exact ⟨Option.some_ne_none _, rfl⟩
  · by_cases hlen : v.length ≠ n * n
    · rw [if_pos hlen]
      exact ⟨Option.some_ne_none _, rfl⟩
    · rw [if_neg hlen, if_pos hmode]
      exact ⟨Option.some_ne_none _, rfl⟩

/-- Witness for C8: a one-level engine handed an empty vector. -/
theorem set_initial_rho_validates_witness :
    (([] : List (ℚ × ℚ)).length ≠ 1 * 1) ∧
      (set_initial_rho (obe.mk (n := 1) true none) ([] : List (ℚ × ℚ))).2 ≠ none ∧
        (set_initial_rho (obe.mk (n := 1) true none) ([] : List (ℚ × ℚ))).1 =
          obe.mk (n := 1) true none :=
  ⟨by decide,
    set_initial_rho_validates (obe.mk (n := 1) true none) [] (Or.inl (by decide))⟩

/-- The flattened index `i * n + j` of a matrix entry is in range. -/
theorem flatten_lt {n : ℕ} (i j : Fin n) : (i : ℕ) * n + (j : ℕ) < n * n :=
  calc (i : ℕ) * n + (j : ℕ) < (i : ℕ) * n + n := Nat.add_lt_add_left j.isLt _
    _ = ((i : ℕ) + 1) * n := by ring
    _ ≤ n * n := Nat.mul_le_mul_right n (Nat.succ_le_of_lt i.isLt)

/-- The complex value of a stored rational entry. -/
noncomputable def toC (p : ℚ × ℚ) : ℂ := ⟨(p.1 : ℝ), (p.2 : ℝ)⟩

/-- The flattened complex state corresponding to a stored vector
(row-major order, as in the script's `rho0[0] = 1`). -/
noncomputable def rho_of_list (n : ℕ) (v : List (ℚ × ℚ)) :
    Fin (n * n) → ℂ :=
  fun i => toC (v.getD i (0, 0))

/-- Modelled from the spec: `evolve_density` bookkeeping (§4.4/§6) — it
produces a time grid paired with the flattened trajectory, whose first
entry is the stored initial condition and whose subsequent entries are
integrator steps of the Liouville generator. -/
noncomputable def evolve_density {n : ℕ} (s : obe n)
    (L : Matrix (Fin (n * n)) (Fin (n * n)) ℂ) (h : ℝ) (steps : ℕ) :
    Option (List ℝ × List (Fin (n * n) → ℂ)) :=
  s.rho0.map fun v =>
    ((List.range (steps + 1)).map fun k => h * k,
      (List.range (steps + 1)).map fun k =>
        (stepComplex L h)^[k] (rho_of_list n v))

/-- Modelled from the spec: `reshape_sol` (§4.4) — recover each flattened
state as an n×n complex density matrix. -/
noncomputable def reshape_rho {n : ℕ} (x : Fin (n * n) → ℂ) :
    Matrix (Fin n) (Fin n) ℂ :=
  Matrix.of fun i j => x ⟨(i : ℕ) * n + (j : ℕ), flatten_lt i j⟩

/-- Modelled from the spec: `reshape_sol` applied to a whole solution:
the time grid together with the dimension × dimension × time array. -/
noncomputable def reshape_sol {n : ℕ}
    (sol : List ℝ × List (Fin (n * n) → ℂ)) :
    List ℝ × List (Matrix (Fin n) (Fin n) ℂ) :=
  (sol.1, sol.2.map reshape_rho)

/-- C10: in complex-flattening mode (`transform_into_re_im = False`),
`set_initial_rho` accepts a real-valued vector of length n² without
error; the subsequent `evolve_density` yields a time grid and trajectory,
and `reshape_sol`'s density-matrix array at the initial time has diagonal
entry `j` equal to the supplied population at flattened index `j·n+j`. -/
theorem set_initial_rho_complex_mode {n : ℕ} (s : obe n)
    (v : List (ℚ × ℚ)) (L : Matrix (Fin (n * n)) (Fin (n * n)) ℂ)
    (h : ℝ) (steps : ℕ) (j : Fin n)
    (hmode : s.transform_into_re_im = false) (hlen : v.length = n * n)
    (_hreal : ∀ p ∈ v, p.2 = 0) :
    (set_initial_rho s v).2 = none ∧
      (set_initial_rho s v).1.rho0 = some v ∧
      evolve_density (set_initial_rho s v).1 L h steps =
        some ((List.range (steps + 1)).map fun k => h * k,
          (List.range (steps + 1)).map fun k =>
            (stepComplex L h)^[k] (rho_of_list n v)) ∧
      reshape_rho ((stepComplex L h)^[0] (rho_of_list n v)) j j =
        toC (v.getD ((j : ℕ) * n + (j : ℕ)) (0, 0)) := by
  have hset : set_initial_rho s v = ({ s with rho0 := some v }, none) := by
    rw [set_initial_rho, if_neg (fun hcon => hcon hlen), if_neg]
    rintro ⟨htrue, -⟩
    rw [hmode] at htrue
    exact Bool.false_ne_true htrue
  refine ⟨by rw [hset], by rw [hset], ?_, rfl⟩
  rw [hset]
  rfl

/-- Witness for C10: a one-level engine in complex mode handed the
real-valued vector `[1]`. -/
theorem set_initial_rho_complex_mode_witness :
    ((obe.mk (n := 1) false none).transform_into_re_im = false ∧
        ([((1 : ℚ), (0 : ℚ))]).length = 1 * 1) ∧
      (set_initial_rho (obe.mk (n := 1) false none) [(1, 0)]).2 = none ∧
        (set_initial_rho (obe.mk (n := 1) false none) [(1, 0)]).1.rho0 =
          some [(1, 0)] :=
  ⟨⟨rfl, by decide⟩,
    ((set_initial_rho_complex_mode (obe.mk (n := 1) false none) [(1, 0)] 0 0 0 0
      rfl (by decide) (by decide)).1),
    ((set_initial_rho_complex_mode (obe.mk (n := 1) false none) [(1, 0)] 0 0 0 0
      rfl (by decide) (by decide)).2.1)⟩

/-! ## Rate-equation engine construction lifecycle (C9)

The script reads `rateeq.sol.t` and `rateeq.sol.y` immediately after
`pylcp.rateeq(...)` is constructed (lines 219-226), with no prior
`set_initial_pop` or `evolve_populations`.  The body of `pylcp.rateeq` is
missing from the repository slice; per the spec the population state is
"created by an explicit initial-condition setter" (§3) and the time series
is produced by `evolve_populations` (§4.3, §6), so construction populates
no solution. -/

/-- The solution-bearing state of a `pylcp.rateeq` engine: the optional
solution `sol` (time grid `sol.t` and population trajectory `sol.y`). -/
structure rateeq (n : ℕ) where
  sol : Option (List ℝ × List (Fin n → ℝ))

/-- Modelled from the spec: constructing
`pylcp.rateeq(laserBeams, magField, hamiltonian)` (missing from the
repository slice): construction stores the structural references but
computes no trajectory — the population vector is "created by an explicit
initial-condition setter" (§3) and the time series only by
`evolve_populations` (§4.3). -/
def rateeq.init (n : ℕ) : rateeq n := { sol := none }

/-- Modelled from the spec: `evolve_populations` populates `sol` with the
time grid and the integrated population trajectory (§4.3, §6). -/
noncomputable def rateeq.evolve_populations {n : ℕ} (_s : rateeq n)
    (R : Matrix (Fin n) (Fin n) ℝ) (h : ℝ) (N0 : Fin n → ℝ) (steps : ℕ) :
    rateeq n :=
  { sol := some ((List.range (steps + 1)).map fun k => h * k,
      (List.range (steps + 1)).map fun k => (eulerPop R h)^[k] N0) }

/-- Counterexample to C9: at the script's F=2 → F=3 dimension (5+7=12),
a freshly constructed rate-equation engine has no readable solution `sol`
— construction does not populate it. -/
theorem rateeq_init_sol_none : (rateeq.init 12).sol = none := rfl

/-- C9 (amended): `sol` is empty immediately after construction; it is
populated (time grid plus population trajectory) only once
`evolve_populations` has run. -/
theorem rateeq_sol_lifecycle {n : ℕ} (R : Matrix (Fin n) (Fin n) ℝ)
    (h : ℝ) (N0 : Fin n → ℝ) (steps : ℕ) :
    (rateeq.init n).sol = none ∧
      ((rateeq.init n).evolve_populations R h N0 steps).sol =
        some ((List.range (steps + 1)).map fun k => h * k,
          (List.range (steps + 1)).map fun k => (eulerPop R h)^[k] N0) :=
  ⟨rfl, rfl⟩

end Pylcp
